import Mathlib

/-!
# Verification of the QGenericTree core (`qgenerictreebase.h`)

Shallow embedding of `QGenericTreeBase<int, int, QMap>` (the ordered backend,
instantiated at `int` keys and values like the repository's test driver).

Modelling choices:
* `NodeData` pointers (`QSharedPointer<NodeData>`) become natural-number ids
  into a `Heap := List NodeData`; pointer identity is id equality, allocation
  (`NodePtr::create`) appends a fresh record at index `h.length`.
* The `QMap<int, NodePtr>` children container becomes an association list kept
  in ascending key order (`mapInsert` inserts sorted, replacing an existing
  key, exactly as `QMap::insert`); `children.first()` is the head value.
* A falsy `Node` handle (null `QSharedPointer`) is `Option.none`; a truthy
  handle to node `n` is `some n`.
* Weak-pointer liveness (`QWeakPointer`) is modelled for the weak-handle claims
  as reachability from the set of live external strong handles through the
  children maps — the only strong edges — following the ownership invariant
  the tree maintains (no strong cycles: children edges are the sole owning
  direction).
* Recursions that in C++ walk parent or child pointer chains take explicit
  fuel; well-formedness side conditions (`parentDecB`, `childMonoB`,
  `childrenBoundedB`) make the fuel sufficient.
-/

set_option linter.unusedVariables false

namespace QGenericTree

/-- Value type: `int`; a value-initialized value is `0`. -/
abbrev Val := Int

/-- Children maps: `QMap<int, NodePtr>` as an ascending association list. -/
abbrev ChildMap := List (Nat × Nat)

/-- `QMap::value(key, default{})`: first entry with the given key, if any. -/
def mapLookup (k : Nat) : ChildMap → Option Nat
  | [] => none
  | (k', v) :: rest => if k' = k then some v else mapLookup k rest

/-- `QMap::contains(key)`. -/
def mapContains (k : Nat) (m : ChildMap) : Bool :=
  (mapLookup k m).isSome

/-- `QMap::insert(key, value)`: sorted insert, replacing an existing key. -/
def mapInsert (k : Nat) (v : Nat) : ChildMap → ChildMap
  | [] => [(k, v)]
  | (k', v') :: rest =>
    if k < k' then (k, v) :: (k', v') :: rest
    else if k = k' then (k, v) :: rest
    else (k', v') :: mapInsert k v rest

/-- `QMap::remove(key)` (single-valued map): drop entries with the key,
returning the new map and the number of removed entries. -/
def mapRemoveKey (k : Nat) : ChildMap → ChildMap × Nat
  | [] => ([], 0)
  | (k', v') :: rest =>
    if k' = k then
      let (m, n) := mapRemoveKey k rest
      (m, n + 1)
    else
      let (m, n) := mapRemoveKey k rest
      ((k', v') :: m, n)

/-- The iterator-scan `for (it …) if (*it == d)` used by `subKey`, `key` and
`detach`: key of the first entry whose value is the given id. -/
def mapKeyOfValue (v : Nat) : ChildMap → Option Nat
  | [] => none
  | (k', v') :: rest => if v' = v then some k' else mapKeyOfValue v rest

/-- `ConstNode::detach`'s erase: remove the first entry whose value is the
given id; `none` when no entry matches (then the loop falls through). -/
def mapEraseValue (v : Nat) : ChildMap → Option ChildMap
  | [] => none
  | (k', v') :: rest =>
    if v' = v then some rest
    else (mapEraseValue v rest).map ((k', v') :: ·)

/-- The advance-scan of `iterator_base::operator++`: find the first entry
whose value is the given id, then report the value of the following entry;
`some none` = found but last (walk one layer up), `none` = not found at all
(the `Q_ASSERT` situation). -/
def mapNextSibling (v : Nat) : ChildMap → Option (Option Nat)
  | [] => none
  | (_, v') :: rest =>
    if v' = v then some (rest.head?.map Prod.snd)
    else mapNextSibling v rest

/-- The backing record `QGenericTreeBase::NodeData`: weak parent link,
children map, optional value. -/
structure NodeData where
  parent : Option Nat
  children : ChildMap
  value : Option Val
  deriving Repr, DecidableEq

/-- A default-constructed `NodeData` (empty parent, no children, no value). -/
def NodeData.empty : NodeData := ⟨none, [], none⟩

/-- The store of all allocated `NodeData`; ids are list indices. -/
abbrev Heap := List NodeData

/-- Dereference an id (pointer dereference; ids used by the code are always
in range, out-of-range reads yield the empty record). -/
def nodeAt (h : Heap) (n : Nat) : NodeData :=
  h.getD n NodeData.empty

/-- The weak parent link of a node. -/
def parentOf (h : Heap) (n : Nat) : Option Nat :=
  (nodeAt h n).parent

/-- The children map of a node. -/
def childrenOf (h : Heap) (n : Nat) : ChildMap :=
  (nodeAt h n).children

/-- The optional value of a node. -/
def valueOf (h : Heap) (n : Nat) : Option Val :=
  (nodeAt h n).value

/-- Replace a node's children map. -/
def setChildren (h : Heap) (n : Nat) (c : ChildMap) : Heap :=
  h.set n { nodeAt h n with children := c }

/-- Replace a node's parent link. -/
def setParent (h : Heap) (n : Nat) (p : Option Nat) : Heap :=
  h.set n { nodeAt h n with parent := p }

/-- Replace a node's value slot. -/
def setValueOpt (h : Heap) (n : Nat) (v : Option Val) : Heap :=
  h.set n { nodeAt h n with value := v }

/-- `Node::setValue` / assignment through the handle (`node = v`). -/
def assignValue (h : Heap) (n : Nat) (v : Val) : Heap :=
  setValueOpt h n (some v)

/-- `Node::clearValue`. -/
def clearValue (h : Heap) (n : Nat) : Heap :=
  setValueOpt h n none

/-- `ConstNode::hasValue`. -/
def hasValue (h : Heap) (n : Nat) : Bool :=
  (valueOf h n).isSome

/-- `ConstNode::containsChild`. -/
def containsChild (h : Heap) (n : Nat) (k : Nat) : Bool :=
  mapContains k (childrenOf h n)

/-- `ConstNode::child` / const `operator[]`: the child handle, falsy (`none`)
when absent. -/
def childOf (h : Heap) (n : Nat) (k : Nat) : Option Nat :=
  mapLookup k (childrenOf h n)

/-- `const TValue &ConstNode::operator*()`: `*(d->value)`. Dereferencing an
empty optional is a precondition violation; the model yields `none` there
(no stored value to return). -/
def constDeref (h : Heap) (n : Nat) : Option Val :=
  valueOf h n

/-- `TValue &Node::operator*()`: when no value is present the code
*emplaces* a value-initialized `int` (0) and returns a reference to it,
otherwise it returns the stored value. Returns the read value and the
(possibly updated) heap. -/
def mutDeref (h : Heap) (n : Nat) : Val × Heap :=
  match valueOf h n with
  | none => (0, assignValue h n 0)
  | some v => (v, h)

/-- `Node::operator[]`: return the existing child, or allocate a fresh
`NodeData` with this node as parent and insert it (upsert). -/
def subscriptChild (h : Heap) (n : Nat) (k : Nat) : Nat × Heap :=
  match mapLookup k (childrenOf h n) with
  | some c => (c, h)
  | none =>
    let c := h.length
    let h1 := h ++ [⟨some n, [], none⟩]
    (c, setChildren h1 n (mapInsert k c (childrenOf h1 n)))

/-- `Node::removeChild`. -/
def removeChild (h : Heap) (n : Nat) (k : Nat) : Heap × Bool :=
  let (m, cnt) := mapRemoveKey k (childrenOf h n)
  (setChildren h n m, decide (0 < cnt))

/-- `ConstNode::detach`: look up the parent; if present, erase the first
entry of the parent's children that is this node and clear the parent link;
a node without parent is left untouched. -/
def detach (h : Heap) (n : Nat) : Heap :=
  match parentOf h n with
  | none => h
  | some p =>
    match mapEraseValue n (childrenOf h p) with
    | none => h
    | some cs => setParent (setChildren h p cs) n none

/-- `NodeData::find(keys, index, current)`: walk the key path through the
children maps; any missing segment yields the null pointer (`none`). -/
def findNode (h : Heap) (n : Nat) : List Nat → Option Nat
  | [] => some n
  | k :: ks =>
    match mapLookup k (childrenOf h n) with
    | none => none
    | some c => findNode h c ks

/-- Repeated single-step `ConstNode::child` lookup along a path (the
"addressed node" of a key path). -/
def childPath (h : Heap) (n : Nat) (ks : List Nat) : Option Nat :=
  ks.foldl (fun acc k => acc.bind fun m => childOf h m k) (some n)

/-- `NodeData::depth`: parent-chain length, with fuel for the recursion. -/
def depthFuel : Nat → Heap → Nat → Nat
  | 0, _, _ => 0
  | f + 1, h, n =>
    match parentOf h n with
    | none => 0
    | some p => depthFuel f h p + 1

/-- `ConstNode::depth` with fuel `h.length` (sufficient on heaps whose parent
links decrease the id, see `parentDecB`). -/
def depthOf (h : Heap) (n : Nat) : Nat :=
  depthFuel h.length h n

/-- `NodeData::key`: the full key path, rebuilt by walking parent links and
scanning each parent's children map for this node (fueled recursion). -/
def keyFuel : Nat → Heap → Nat → List Nat
  | 0, _, _ => []
  | f + 1, h, n =>
    match parentOf h n with
    | none => []
    | some p =>
      match mapKeyOfValue n (childrenOf h p) with
      | some k => keyFuel f h p ++ [k]
      | none => []

/-- `ConstNode::key` with fuel `h.length`. -/
def keyOf (h : Heap) (n : Nat) : List Nat :=
  keyFuel h.length h n

/-- `ConstNode::subKey`: this node's key below its parent; a value-initialized
key (`0`) for a parentless node or when the scan fails. -/
def subKeyOf (h : Heap) (n : Nat) : Nat :=
  match parentOf h n with
  | none => 0
  | some p => (mapKeyOfValue n (childrenOf h p)).getD 0

/-! ## The iterator (`iterator_base`)

An iterator is its `_node` pointer; a whole tree carries its heap and the id
of the root the tree owns. -/

/-- The walk-up loop (`forever { … }`) of `operator++`: climb ancestors
looking for a next sibling.  The not-found case (`Q_ASSERT` would fire) stays
put; fuel bounds the parent chain. -/
def walkUp : Nat → Heap → Nat → Nat
  | 0, _, n => n
  | f + 1, h, n =>
    match parentOf h n with
    | none => n
    | some p =>
      match mapNextSibling n (childrenOf h p) with
      | some (some sib) => sib
      | some none => walkUp f h p
      | none => n

/-- `iterator_base::operator++`: stay put on a parentless node (cannot
advance over end); else go to the first child if any; else walk up for a
next sibling. -/
def stepIter (h : Heap) (n : Nat) : Nat :=
  match parentOf h n with
  | none => n
  | some _ =>
    match (childrenOf h n).head? with
    | some (_, c) => c
    | none => walkUp h.length h n

/-- `iterator_base::operator==` compares the `_node` pointers only. -/
def iterEq (a b : Nat) : Bool :=
  a = b

/-- `iterator_base::operator bool`: the current node carries a value. -/
def iterTruthy (h : Heap) (n : Nat) : Bool :=
  hasValue h n

/-- A tree handle: its heap and the id of the `_root` node it owns. -/
structure Tree where
  heap : Heap
  root : Nat
  deriving Repr, DecidableEq

/-- A default-constructed tree: one fresh root node. -/
def Tree.empty : Tree := ⟨[NodeData.empty], 0⟩

/-- `QGenericTreeBase::begin`: the root's first child when the root has
children, otherwise the root itself. -/
def beginIter (t : Tree) : Nat :=
  match (childrenOf t.heap t.root).head? with
  | some (_, c) => c
  | none => t.root

/-- `QGenericTreeBase::end`: the root node itself. -/
def endIter (t : Tree) : Nat :=
  t.root

/-- The node sequence visited by `for (it = begin; it != end; ++it)`:
collect positions until the cursor equals `stop`, with fuel. -/
def iterSeq (fuel : Nat) (h : Heap) (it stop : Nat) : List Nat :=
  match fuel with
  | 0 => []
  | f + 1 =>
    if it = stop then []
    else it :: iterSeq f h (stepIter h it) stop

/-- The full begin-to-end visit sequence of a tree (fuel `heap.length`
suffices: every node is visited at most once). -/
def visitSeq (t : Tree) : List Nat :=
  iterSeq t.heap.length t.heap (beginIter t) (endIter t)

/-- `QGenericTreeBase::countElements`: count visited positions, all of them
or only the truthy (value-carrying) ones. -/
def countElements (t : Tree) (valueOnly : Bool) : Nat :=
  (visitSeq t).countP (fun n => !valueOnly || iterTruthy t.heap n)

/-- `QGenericTreeBase::contains(key)`: `_root.containsChild(key)`. -/
def treeContainsKey (t : Tree) (k : Nat) : Bool :=
  containsChild t.heap t.root k

/-- `QGenericTreeBase::contains(path)`: truthiness of `_root.findChild`. -/
def treeContainsPath (t : Tree) (ks : List Nat) : Bool :=
  (findNode t.heap t.root ks).isSome

/-- `QGenericTreeBase::find(path)`: `_root.findChild(path)`. -/
def treeFind (t : Tree) (ks : List Nat) : Option Nat :=
  findNode t.heap t.root ks

/-- Mutable `QGenericTreeBase::operator[](QList)`: walk the path from the
root with the upserting `Node::operator[]`, creating missing segments. -/
def treeSubscriptPath (t : Tree) (ks : List Nat) : Nat × Tree :=
  let (n, h) := ks.foldl
    (fun (acc : Nat × Heap) k =>
      let (m, h) := acc
      subscriptChild h m k)
    (t.root, t.heap)
  (n, ⟨h, t.root⟩)

/-- A `tree[path] = v` build step. -/
def treeAssign (t : Tree) (ks : List Nat) (v : Val) : Tree :=
  let (n, t') := treeSubscriptPath t ks
  ⟨assignValue t'.heap n v, t'.root⟩

/-- Build a tree by a sequence of `tree[path] = v` statements. -/
def buildTree (steps : List (List Nat × Val)) : Tree :=
  steps.foldl (fun t s => treeAssign t s.1 s.2) Tree.empty

/-- `tree[path].clearValue()` on an existing path (no-op when absent). -/
def treeClearValue (t : Tree) (ks : List Nat) : Tree :=
  match findNode t.heap t.root ks with
  | none => t
  | some n => ⟨clearValue t.heap n, t.root⟩

/-! ## Deep copy (`NodeData::clone`, `Node::clone`) -/

/-- Structural reading of a subtree: the observable shape (value here,
children by key) of the graph below a node. -/
inductive STree where
  | node : Option Val → List (Nat × STree) → STree
  deriving Repr

/-- Read the subtree below a node as an `STree`, with fuel. -/
def readTree : Nat → Heap → Nat → STree
  | 0, h, n => .node (valueOf h n) []
  | f + 1, h, n =>
    .node (valueOf h n) ((childrenOf h n).map (fun kc => (kc.1, readTree f h kc.2)))

mutual

/-- `NodeData::clone`: allocate a shallow copy of this record, then replace
every child entry by a deep clone re-parented to the copy, and install the
new children map.  Fuel bounds the child-chain depth. -/
def cloneFuel : Nat → Heap → Nat → Nat × Heap
  | 0, h, n => (n, h)
  | f + 1, h, n =>
    let d := nodeAt h n
    let nid := h.length
    let h1 := h ++ [d]
    let (cs, h2) := cloneChildren f h1 nid d.children
    (nid, setChildren h2 nid cs)

/-- The rewiring loop inside `NodeData::clone`: clone each child in order
and point its parent link at the new record. -/
def cloneChildren : Nat → Heap → Nat → ChildMap → ChildMap × Heap
  | _, h, _, [] => ([], h)
  | f, h, nid, (k, c) :: rest =>
    let (c', h1) := cloneFuel f h c
    let h2 := setParent h1 c' (some nid)
    let (cs, h3) := cloneChildren f h2 nid rest
    ((k, c') :: cs, h3)

end

/-- `Node::clone` / `ConstNode::clone`: deep copy, then clear the copy's own
parent link. -/
def cloneNode (h : Heap) (n : Nat) : Nat × Heap :=
  let (c, h') := cloneFuel h.length h n
  (c, setParent h' c none)

/-! ## Weak handles (`ConstWeakNode` / `WeakNode`)

A program state for the ownership claims: the heap plus the ids currently
held by external strong handles (`Node` variables, tree roots).  A record is
alive exactly while some strong path reaches it: an external handle on it, or
membership in the children map of a reachable record (the spec's liveness
invariant for `QSharedPointer`/`QWeakPointer`, which the tree's no-strong-
cycle discipline makes equivalent to reference counting). -/

structure TreeState where
  heap : Heap
  handles : List Nat
  deriving Repr, DecidableEq

/-- Reachability from `s` to `d` through children edges, with fuel. -/
def reachB : Nat → Heap → Nat → Nat → Bool
  | 0, _, s, d => s = d
  | f + 1, h, s, d =>
    s = d || (childrenOf h s).any (fun kc => reachB f h kc.2 d)

/-- Liveness of a record: some external strong handle reaches it. -/
def aliveB (st : TreeState) (n : Nat) : Bool :=
  st.handles.any (fun r => reachB st.heap.length st.heap r n)

/-- `ConstWeakNode::operator bool`: the observed record is still alive. -/
def weakTruthy (st : TreeState) (w : Nat) : Bool :=
  aliveB st w

/-- `WeakNode::toNode` (`toStrongRef`): a strong handle to the same record
while it is alive, a falsy handle (`none`) once it is gone. -/
def weakToNode (st : TreeState) (w : Nat) : Option Nat :=
  if aliveB st w then some w else none

/-- `Node::drop` of an external handle: forget one strong handle on `n`. -/
def dropHandle (st : TreeState) (n : Nat) : TreeState :=
  ⟨st.heap, st.handles.erase n⟩

/-! ## Well-formedness side conditions -/

/-- Every child id stored anywhere in the heap is a valid index. -/
def childrenBoundedB (h : Heap) : Bool :=
  (List.range h.length).all fun i =>
    (childrenOf h i).all fun kc => kc.2 < h.length

/-- Parent links decrease the id (parents are allocated before children). -/
def parentDecB (h : Heap) : Bool :=
  (List.range h.length).all fun i =>
    match parentOf h i with
    | none => true
    | some p => p < i

/-- Child ids exceed their container's id (children are allocated after
their parents), so ids strictly increase along child paths. -/
def childMonoB (h : Heap) : Bool :=
  (List.range h.length).all fun i =>
    (childrenOf h i).all fun kc => i < kc.2

/-- Strict ascent of a key list, as a boolean chain check. -/
def chainLtB : List Nat → Bool
  | [] => true
  | [_] => true
  | a :: b :: rest => a < b && chainLtB (b :: rest)

/-- Children maps keep strictly ascending keys (the `QMap` invariant). -/
def sortedKeysB (h : Heap) : Bool :=
  (List.range h.length).all fun i =>
    chainLtB ((childrenOf h i).map Prod.fst)

/-- `RangeClosed lo hi h`: ids in `[lo, hi)` only have children in
`[lo, hi)`. -/
def RangeClosed (lo hi : Nat) (h : Heap) : Prop :=
  ∀ i, lo ≤ i → i < hi → ∀ kc ∈ childrenOf h i, lo ≤ kc.2 ∧ kc.2 < hi

/-- Two heaps agree on children and value (not necessarily parent) at an
id. -/
def agreeCV (h1 h2 : Heap) (i : Nat) : Prop :=
  childrenOf h1 i = childrenOf h2 i ∧ valueOf h1 i = valueOf h2 i

/-- Child ids exceed their container's id, below a bound. -/
def MonoBelow (L : Nat) (h : Heap) : Prop :=
  ∀ i, i < L → ∀ kc ∈ childrenOf h i, i < kc.2

/-- What a `NodeData::clone` call guarantees: the copy is the freshly
allocated id, the heap only grows, no pre-existing record changes, the new
records form a children-closed block, and the copy reads structurally equal
to the source. -/
def CloneFuelOK (h : Heap) (n c : Nat) (h' : Heap) : Prop :=
  @Eq Nat c h.length ∧
  h.length < h'.length ∧
  (∀ i, i < h.length → nodeAt h' i = nodeAt h i) ∧
  RangeClosed h.length h'.length h' ∧
  (∀ g, readTree g h' c = readTree g h n)

/-- What the child-rewiring loop of `NodeData::clone` guarantees: keys are
preserved in order, the heap only grows, no pre-existing record changes, the
new records form a children-closed block, and each cloned child is a fresh
id reading structurally equal to its source. -/
def CloneListOK (h : Heap) (l cs : ChildMap) (h2 : Heap) : Prop :=
  cs.map Prod.fst = l.map Prod.fst ∧
  h.length ≤ h2.length ∧
  (∀ i, i < h.length → nodeAt h2 i = nodeAt h i) ∧
  RangeClosed h.length h2.length h2 ∧
  List.Forall₂ (fun kc kcc => kcc.1 = kc.1 ∧ h.length ≤ kcc.2 ∧ kcc.2 < h2.length ∧
    ∀ g, readTree g h2 kcc.2 = readTree g h kc.2) l cs

/-! ## Concrete instances -/

/-- The tree of the iteration test:
`{0:0, 1:1, 1→2:2, 1→3:3, 1→3→4:4, 1→3→5:5, 1→3→6:6, 1→7:7, 8:8}`. -/
def demoTree : Tree :=
  buildTree [([0], 0), ([1], 1), ([1, 2], 2), ([1, 3], 3), ([1, 3, 4], 4),
             ([1, 3, 5], 5), ([1, 3, 6], 6), ([1, 7], 7), ([8], 8)]

/-- `demoTree` after `tree[1][3][5].clearValue()`. -/
def demoTreeCleared : Tree :=
  treeClearValue demoTree [1, 3, 5]

/-- A tree whose root has no children and carries the lone value 42. -/
def loneValueTree : Tree :=
  treeAssign Tree.empty [] 42

/-- A two-node state: a root node owning one child under key 13, with
external strong handles on both (the `testNode`/`childNode` scenario of the
test driver). -/
def weakDemoState : TreeState :=
  ⟨[⟨none, [(13, 1)], none⟩, ⟨some 0, [], none⟩], [0, 1]⟩

/-- `weakDemoState` after `childNode.drop()`. -/
def weakDemoDropped : TreeState :=
  dropHandle weakDemoState 1

/-- `weakDemoDropped` after `testNode.removeChild(13)`. -/
def weakDemoRemoved : TreeState :=
  ⟨(removeChild weakDemoDropped.heap 0 13).1, weakDemoDropped.handles⟩

/-- A one-node heap whose node carries no value. -/
def noValueHeap : Heap :=
  [NodeData.empty]

end QGenericTree

namespace QGenericTree

/-! ## Theorems -/

/-- `stop` is never an element of the collected sequence: the loop
`for (it = begin; it != end; ++it)` stops exactly at `stop`. -/
theorem stop_not_mem_iterSeq (fuel : Nat) (h : Heap) (it stop : Nat) :
    stop ∉ iterSeq fuel h it stop := by
  induction fuel generalizing it with
  | zero => simp [iterSeq]
  | succ f ih =>
    simp only [iterSeq]
    split
    · simp
    · rename_i hne
      intro hmem
      rcases List.mem_cons.mp hmem with h1 | h2
      · exact hne h1.symm
      · exact ih _ h2

/-- C1: on the ordered-backend tree
`{0:0, 1:1, 1→2:2, 1→3:3, 1→3→4:4, 1→3→5:5, 1→3→6:6, 1→7:7, 8:8}`, the
begin-to-end iteration (advancing by `operator++`) visits nodes in
depth-first pre-order and reads the value sequence `0,…,8`; after
`tree[1][3][5].clearValue()` the iterator position for key path `[1,3,5]`
(node id 6) is falsy, still reports key `[1,3,5]`, and is still visited (the
visit sequence is unchanged). -/
theorem c1_preorder_iteration :
    (visitSeq demoTree).map (fun n => valueOf demoTree.heap n) =
      [some 0, some 1, some 2, some 3, some 4, some 5, some 6, some 7, some 8] ∧
    (visitSeq demoTree).map (fun n => keyOf demoTree.heap n) =
      [[0], [1], [1, 2], [1, 3], [1, 3, 4], [1, 3, 5], [1, 3, 6], [1, 7], [8]] ∧
    treeFind demoTreeCleared [1, 3, 5] = some 6 ∧
    iterTruthy demoTreeCleared.heap 6 = false ∧
    keyOf demoTreeCleared.heap 6 = [1, 3, 5] ∧
    6 ∈ visitSeq demoTreeCleared ∧
    visitSeq demoTreeCleared = visitSeq demoTree := by
  refine ⟨by decide, by decide, by decide, by decide, by decide, by decide, by decide⟩

/-- C2 (amended): the root is never an emitted element of a begin-to-end
iteration; when the root has no children, `begin()` already equals `end()`
and the iteration is empty, so a lone value on the root is not observable
through iteration. -/
theorem c2_root_iteration_amended (t : Tree) :
    endIter t ∉ visitSeq t ∧
    (childrenOf t.heap t.root = [] →
      beginIter t = endIter t ∧ visitSeq t = []) := by
  constructor
  · exact stop_not_mem_iterSeq _ _ _ _
  · intro hnc
    have hb : beginIter t = endIter t := by
      simp [beginIter, endIter, hnc]
    refine ⟨hb, ?_⟩
    unfold visitSeq
    cases hl : t.heap.length with
    | zero => simp [iterSeq]
    | succ f => simp [iterSeq, hb, endIter]

/-- C2 counterexample: a tree whose root has no children and holds the lone
value 42 — contrary to the claim, iterating from `begin()` to `end()` yields
no element at all (not the root), and `countElements(true)` is 0, so the
root's value is not observable through iteration. -/
theorem c2_lone_root_counterexample :
    childrenOf loneValueTree.heap loneValueTree.root = [] ∧
    valueOf loneValueTree.heap loneValueTree.root = some 42 ∧
    visitSeq loneValueTree = [] ∧
    countElements loneValueTree true = 0 := by
  refine ⟨by decide, by decide, by decide, by decide⟩

/-- Witness for `c2_root_iteration_amended` on a childless-root tree. -/
theorem c2_root_iteration_amended_witness :
    beginIter loneValueTree = endIter loneValueTree ∧ visitSeq loneValueTree = [] :=
  (c2_root_iteration_amended loneValueTree).2 (by decide)

/-- C3 counterexample: `iterator_base::operator==` compares only the
`_node` pointers — there is no end-state flag — so on a tree whose root has
no children the `begin()` iterator, which is positioned at the root (a real
node of the tree), compares equal to the past-the-end iterator. -/
theorem c3_end_vs_root_counterexample :
    iterEq (beginIter loneValueTree) (endIter loneValueTree) = true ∧
    beginIter loneValueTree = loneValueTree.root ∧
    loneValueTree.root < loneValueTree.heap.length := by
  refine ⟨by decide, by decide, by decide⟩

/-- C3 (amended): iterator equality compares the referenced node identity
only (no end-state flag); the past-the-end iterator holds the root node, so
it compares unequal to an iterator positioned at any non-root node but
coincides with an iterator positioned at the root. -/
theorem c3_iter_eq_amended :
    (∀ a b : Nat, iterEq a b = true ↔ a = b) ∧
    (∀ t : Tree, endIter t = t.root) ∧
    (∀ (t : Tree) (n : Nat), n ≠ t.root → iterEq n (endIter t) = false) := by
  refine ⟨fun a b => by simp [iterEq], fun t => rfl, fun t n hn => by simp [iterEq, endIter, hn]⟩

/-- Witness for `c3_iter_eq_amended` at concrete inputs. -/
theorem c3_iter_eq_amended_witness :
    iterEq 3 3 = true ∧ iterEq 5 (endIter demoTree) = false := by
  refine ⟨(c3_iter_eq_amended.1 3 3).mpr rfl, c3_iter_eq_amended.2.2 demoTree 5 (by decide)⟩

/-- C10: advancing an iterator whose current node has no parent leaves it
unchanged — `operator++` returns immediately on a parentless `_node` — so
the past-the-end iterator (which holds the root) is a fixed point of
advance: `++end() == end()`. -/
theorem c10_advance_fixed_at_end (h : Heap) (n : Nat) (t : Tree) :
    (parentOf h n = none → stepIter h n = n) ∧
    (parentOf t.heap t.root = none → stepIter t.heap (endIter t) = endIter t) := by
  constructor
  · intro hp
    simp [stepIter, hp]
  · intro hp
    simp [stepIter, endIter, hp]

/-- Witness for `c10_advance_fixed_at_end` on the demo tree. -/
theorem c10_advance_fixed_at_end_witness :
    stepIter demoTree.heap (endIter demoTree) = endIter demoTree :=
  (c10_advance_fixed_at_end demoTree.heap demoTree.root demoTree).2 (by decide)

/-- C4 counterexample: on a node with no value present, the mutable
`Node::operator*` is not a precondition violation — its no-value branch is
an explicit, fully defined emplace: it returns the value-initialized `int`
(0) and installs it, flipping `hasValue()` from `false` to `true`. -/
theorem c4_mut_deref_counterexample :
    hasValue noValueHeap 0 = false ∧
    constDeref noValueHeap 0 = none ∧
    (mutDeref noValueHeap 0).1 = 0 ∧
    valueOf (mutDeref noValueHeap 0).2 0 = some 0 ∧
    hasValue (mutDeref noValueHeap 0).2 0 = true := by
  refine ⟨by decide, by decide, by decide, by decide, by decide⟩

/-- C4 (amended): with a value present both dereference variants return the
stored value and leave the node unchanged; with no value present the
read-only variant has no stored value to yield (precondition violation),
while the mutable variant default-constructs the value in place and returns
it. -/
theorem c4_deref_amended (h : Heap) (n : Nat) :
    (∀ v, valueOf h n = some v → constDeref h n = some v ∧ mutDeref h n = (v, h)) ∧
    (valueOf h n = none →
      constDeref h n = none ∧ mutDeref h n = (0, assignValue h n 0)) := by
  constructor
  · intro v hv
    exact ⟨hv, by simp [mutDeref, hv]⟩
  · intro hv
    exact ⟨hv, by simp [mutDeref, hv]⟩

/-- Witness for `c4_deref_amended` on concrete nodes. -/
theorem c4_deref_amended_witness :
    constDeref demoTree.heap 1 = some 0 ∧ mutDeref demoTree.heap 1 = (0, demoTree.heap) :=
  (c4_deref_amended demoTree.heap 1).1 0 (by decide)

/-- Folding `Option.bind` over a dead (`none`) accumulator stays dead. -/
theorem childPath_none (h : Heap) (ks : List Nat) :
    ks.foldl (fun acc k => acc.bind fun m => childOf h m k) none = none := by
  induction ks with
  | nil => rfl
  | cons k ks ih => simpa [List.foldl_cons] using ih

/-- `NodeData::find` is exactly the iterated single-step `child` lookup. -/
theorem findNode_eq_childPath (h : Heap) (n : Nat) (ks : List Nat) :
    findNode h n ks = childPath h n ks := by
  induction ks generalizing n with
  | nil => rfl
  | cons k ks ih =>
    unfold findNode childPath
    simp only [List.foldl_cons, Option.some_bind]
    cases hc : childOf h n k with
    | none =>
      rw [show mapLookup k (childrenOf h n) = none from hc]
      exact (childPath_none h ks).symm
    | some c =>
      rw [show mapLookup k (childrenOf h n) = some c from hc]
      exact ih c

/-- C8: multi-key lookup returns the addressed node — `NodeData::find` equals
the iterated `child` lookup, so it is falsy exactly when some segment is
missing (a missing segment anywhere forces a falsy result), and both
`contains` forms report exactly the truthiness of the corresponding lookup.
No failure is reported by any other means than a falsy handle. -/
theorem c8_lookup_absence (h : Heap) (n : Nat) (ks : List Nat) :
    (findNode h n ks = childPath h n ks) ∧
    (∀ pre k post m, ks = pre ++ k :: post → findNode h n pre = some m →
      childOf h m k = none → findNode h n ks = none) ∧
    (∀ (t : Tree) (k : Nat), treeContainsKey t k = (childOf t.heap t.root k).isSome) ∧
    (∀ (t : Tree) (p : List Nat), treeContainsPath t p = (treeFind t p).isSome) := by
  refine ⟨findNode_eq_childPath h n ks, ?_, ?_, ?_⟩
  · intro pre k post m hks hfind hchild
    subst hks
    induction pre generalizing n with
    | nil =>
      simp only [findNode] at hfind
      cases hfind
      simp only [List.nil_append, findNode]
      rw [show mapLookup k (childrenOf h m) = none from hchild]
    | cons p pre ih =>
      simp only [findNode] at hfind ⊢
      cases hl : mapLookup p (childrenOf h n) with
      | none => rfl
      | some c =>
        rw [hl] at hfind
        exact ih c hfind
  · intro t k
    rfl
  · intro t p
    rfl

/-- Witness for `c8_lookup_absence`: the path `[1, 4]` of the demo tree is
missing its second segment, so the lookup is falsy and `contains` agrees. -/
theorem c8_lookup_absence_witness :
    findNode demoTree.heap demoTree.root [1, 4] = none ∧
    treeContainsPath demoTree [1, 4] = false := by
  constructor
  · exact (c8_lookup_absence demoTree.heap demoTree.root [1, 4]).2.1 [1] 4 [] 2
      (by decide) (by decide) (by decide)
  · have h := (c8_lookup_absence demoTree.heap demoTree.root [1, 4]).2.1 [1] 4 [] 2
      (by decide) (by decide) (by decide)
    simp [treeContainsPath, h]

/-! ### Heap access and update lemmas -/

theorem nodeAt_out (h : Heap) (i : Nat) (hi : h.length ≤ i) :
    nodeAt h i = NodeData.empty := by
  simp [nodeAt, List.getD, List.getElem?_eq_none, hi]

theorem nodeAt_append_lt (h : Heap) (l : Heap) (i : Nat) (hi : i < h.length) :
    nodeAt (h ++ l) i = nodeAt h i := by
  simp [nodeAt, List.getD, List.getElem?_append_left hi]

theorem nodeAt_append_self (h : Heap) (d : NodeData) :
    nodeAt (h ++ [d]) h.length = d := by
  simp [nodeAt, List.getD, List.getElem?_append_right (Nat.le_refl _)]

theorem nodeAt_set_self (h : Heap) (n : Nat) (d : NodeData) (hn : n < h.length) :
    nodeAt (h.set n d) n = d := by
  simp [nodeAt, List.getD, List.getElem?_set_self', hn]

theorem nodeAt_set_ne (h : Heap) (n : Nat) (d : NodeData) (i : Nat) (hi : i ≠ n) :
    nodeAt (h.set n d) i = nodeAt h i := by
  simp [nodeAt, List.getD, List.getElem?_set_ne (Ne.symm hi)]

theorem length_setChildren (h : Heap) (n : Nat) (c : ChildMap) :
    (setChildren h n c).length = h.length := by
  simp [setChildren]

theorem length_setParent (h : Heap) (n : Nat) (p : Option Nat) :
    (setParent h n p).length = h.length := by
  simp [setParent]

theorem length_setValueOpt (h : Heap) (n : Nat) (v : Option Val) :
    (setValueOpt h n v).length = h.length := by
  simp [setValueOpt]

theorem parentOf_setChildren (h : Heap) (n : Nat) (c : ChildMap) (i : Nat) :
    parentOf (setChildren h n c) i = parentOf h i := by
  unfold parentOf setChildren
  rcases eq_or_ne i n with rfl | hne
  · rcases Nat.lt_or_ge i h.length with hlt | hge
    · rw [nodeAt_set_self h i _ hlt]
    · rw [List.set_eq_of_length_le hge]
  · rw [nodeAt_set_ne h n _ i hne]

theorem valueOf_setChildren (h : Heap) (n : Nat) (c : ChildMap) (i : Nat) :
    valueOf (setChildren h n c) i = valueOf h i := by
  unfold valueOf setChildren
  rcases eq_or_ne i n with rfl | hne
  · rcases Nat.lt_or_ge i h.length with hlt | hge
    · rw [nodeAt_set_self h i _ hlt]
    · rw [List.set_eq_of_length_le hge]
  · rw [nodeAt_set_ne h n _ i hne]

theorem childrenOf_setChildren_self (h : Heap) (n : Nat) (c : ChildMap)
    (hn : n < h.length) :
    childrenOf (setChildren h n c) n = c := by
  unfold childrenOf setChildren
  rw [nodeAt_set_self h n _ hn]

theorem childrenOf_setChildren_ne (h : Heap) (n : Nat) (c : ChildMap) (i : Nat)
    (hi : i ≠ n) :
    childrenOf (setChildren h n c) i = childrenOf h i := by
  unfold childrenOf setChildren
  rw [nodeAt_set_ne h n _ i hi]

theorem childrenOf_setParent (h : Heap) (n : Nat) (p : Option Nat) (i : Nat) :
    childrenOf (setParent h n p) i = childrenOf h i := by
  unfold childrenOf setParent
  rcases eq_or_ne i n with rfl | hne
  · rcases Nat.lt_or_ge i h.length with hlt | hge
    · rw [nodeAt_set_self h i _ hlt]
    · rw [List.set_eq_of_length_le hge]
  · rw [nodeAt_set_ne h n _ i hne]

theorem valueOf_setParent (h : Heap) (n : Nat) (p : Option Nat) (i : Nat) :
    valueOf (setParent h n p) i = valueOf h i := by
  unfold valueOf setParent
  rcases eq_or_ne i n with rfl | hne
  · rcases Nat.lt_or_ge i h.length with hlt | hge
    · rw [nodeAt_set_self h i _ hlt]
    · rw [List.set_eq_of_length_le hge]
  · rw [nodeAt_set_ne h n _ i hne]

theorem parentOf_setParent_self (h : Heap) (n : Nat) (p : Option Nat)
    (hn : n < h.length) :
    parentOf (setParent h n p) n = p := by
  unfold parentOf setParent
  rw [nodeAt_set_self h n _ hn]

theorem parentOf_setParent_ne (h : Heap) (n : Nat) (p : Option Nat) (i : Nat)
    (hi : i ≠ n) :
    parentOf (setParent h n p) i = parentOf h i := by
  unfold parentOf setParent
  rw [nodeAt_set_ne h n _ i hi]

theorem parentOf_setValueOpt (h : Heap) (n : Nat) (v : Option Val) (i : Nat) :
    parentOf (setValueOpt h n v) i = parentOf h i := by
  unfold parentOf setValueOpt
  rcases eq_or_ne i n with rfl | hne
  · rcases Nat.lt_or_ge i h.length with hlt | hge
    · rw [nodeAt_set_self h i _ hlt]
    · rw [List.set_eq_of_length_le hge]
  · rw [nodeAt_set_ne h n _ i hne]

theorem childrenOf_setValueOpt (h : Heap) (n : Nat) (v : Option Val) (i : Nat) :
    childrenOf (setValueOpt h n v) i = childrenOf h i := by
  unfold childrenOf setValueOpt
  rcases eq_or_ne i n with rfl | hne
  · rcases Nat.lt_or_ge i h.length with hlt | hge
    · rw [nodeAt_set_self h i _ hlt]
    · rw [List.set_eq_of_length_le hge]
  · rw [nodeAt_set_ne h n _ i hne]

theorem valueOf_setValueOpt_self (h : Heap) (n : Nat) (v : Option Val)
    (hn : n < h.length) :
    valueOf (setValueOpt h n v) n = v := by
  unfold valueOf setValueOpt
  rw [nodeAt_set_self h n _ hn]

theorem valueOf_setValueOpt_ne (h : Heap) (n : Nat) (v : Option Val) (i : Nat)
    (hi : i ≠ n) :
    valueOf (setValueOpt h n v) i = valueOf h i := by
  unfold valueOf setValueOpt
  rw [nodeAt_set_ne h n _ i hi]

/-! ### Well-formedness extraction -/

/-- Every stored child id is in range — also vacuously at out-of-range ids,
whose record is empty. -/
theorem childrenBounded_spec (h : Heap) (hb : childrenBoundedB h = true) :
    ∀ i, ∀ kc ∈ childrenOf h i, kc.2 < h.length := by
  intro i kc hkc
  rcases Nat.lt_or_ge i h.length with hlt | hge
  · have h1 := List.all_eq_true.mp hb i (List.mem_range.mpr hlt)
    have h2 := List.all_eq_true.mp h1 kc hkc
    exact of_decide_eq_true h2
  · rw [childrenOf, nodeAt_out h i hge] at hkc
    simp [NodeData.empty] at hkc

/-- Parent links decrease the id — also vacuously at out-of-range ids. -/
theorem parentDec_spec (h : Heap) (hp : parentDecB h = true) :
    ∀ i p, parentOf h i = some p → p < i := by
  intro i p hip
  rcases Nat.lt_or_ge i h.length with hlt | hge
  · have := List.all_eq_true.mp hp i (List.mem_range.mpr hlt)
    rw [hip] at this
    simpa using this
  · rw [parentOf, nodeAt_out h i hge] at hip
    simp [NodeData.empty] at hip

/-- Child ids exceed their container's id — also vacuously out of range. -/
theorem childMono_spec (h : Heap) (hm : childMonoB h = true) :
    ∀ i, ∀ kc ∈ childrenOf h i, i < kc.2 := by
  intro i kc hkc
  rcases Nat.lt_or_ge i h.length with hlt | hge
  · have hm1 := List.all_eq_true.mp hm i (List.mem_range.mpr hlt)
    have hm2 := List.all_eq_true.mp hm1 kc hkc
    exact of_decide_eq_true hm2
  · rw [childrenOf, nodeAt_out h i hge] at hkc
    simp [NodeData.empty] at hkc

/-- The boolean chain check implies the strict `Chain'` ordering. -/
theorem chainLtB_chain' : ∀ l : List Nat, chainLtB l = true → l.Chain' (· < ·) := by
  intro l
  induction l with
  | nil => intro _; exact List.chain'_nil
  | cons a rest ih =>
    cases rest with
    | nil => intro _; exact List.chain'_singleton a
    | cons b rest2 =>
      intro hc
      simp only [chainLtB, Bool.and_eq_true, decide_eq_true_eq] at hc
      exact List.chain'_cons.mpr ⟨hc.1, ih (by simpa using hc.2)⟩

/-- Children maps have strictly ascending keys — also vacuously out of
range. -/
theorem sortedKeys_spec (h : Heap) (hs : sortedKeysB h = true) :
    ∀ i, ((childrenOf h i).map Prod.fst).Chain' (· < ·) := by
  intro i
  rcases Nat.lt_or_ge i h.length with hlt | hge
  · have h1 := List.all_eq_true.mp hs i (List.mem_range.mpr hlt)
    exact chainLtB_chain' _ h1
  · rw [childrenOf, nodeAt_out h i hge]
    simp [NodeData.empty]

/-! ### Children-map lemmas -/

theorem mapLookup_insert_self (k : Nat) (v : Nat) (l : ChildMap) :
    mapLookup k (mapInsert k v l) = some v := by
  induction l with
  | nil => simp [mapInsert, mapLookup]
  | cons kv rest ih =>
    obtain ⟨k', v'⟩ := kv
    unfold mapInsert
    rcases Nat.lt_trichotomy k k' with hlt | heq | hgt
    · simp [hlt, mapLookup]
    · simp [heq, Nat.lt_irrefl, mapLookup]
    · have h1 : ¬ k < k' := Nat.not_lt.mpr (Nat.le_of_lt hgt)
      have h2 : k ≠ k' := Nat.ne_of_gt hgt
      simp only [h1, if_false, h2, mapLookup]
      rw [if_neg (Ne.symm h2)]
      exact ih

theorem mapKeyOfValue_insert_fresh (k : Nat) (v : Nat) (l : ChildMap)
    (hv : ∀ kc ∈ l, kc.2 ≠ v) :
    mapKeyOfValue v (mapInsert k v l) = some k := by
  induction l with
  | nil => simp [mapInsert, mapKeyOfValue]
  | cons kv rest ih =>
    obtain ⟨k', v'⟩ := kv
    have hv' : v' ≠ v := hv (k', v') (List.mem_cons_self _ _)
    unfold mapInsert
    rcases Nat.lt_trichotomy k k' with hlt | heq | hgt
    · simp [hlt, mapKeyOfValue]
    · simp [heq, Nat.lt_irrefl, mapKeyOfValue]
    · have h1 : ¬ k < k' := Nat.not_lt.mpr (Nat.le_of_lt hgt)
      have h2 : k ≠ k' := Nat.ne_of_gt hgt
      simp only [h1, if_false, h2, mapKeyOfValue, hv', if_false]
      exact ih fun kc hkc => hv kc (List.mem_cons_of_mem _ hkc)

/-! ### Depth lemmas -/

/-- With id-decreasing parent links, any fuel above the id computes the same
depth. -/
theorem depthFuel_stable (h : Heap)
    (hp : ∀ i p, parentOf h i = some p → p < i) :
    ∀ n f g, n < f → n < g → depthFuel f h n = depthFuel g h n := by
  intro n
  induction n using Nat.strong_induction_on with
  | _ n ih =>
    intro f g hf hg
    obtain ⟨f', rfl⟩ : ∃ f', f = f' + 1 :=
      ⟨f - 1, (Nat.succ_pred_eq_of_pos (Nat.lt_of_le_of_lt (Nat.zero_le _) hf)).symm⟩
    obtain ⟨g', rfl⟩ : ∃ g', g = g' + 1 :=
      ⟨g - 1, (Nat.succ_pred_eq_of_pos (Nat.lt_of_le_of_lt (Nat.zero_le _) hg)).symm⟩
    unfold depthFuel
    cases hpar : parentOf h n with
    | none => rfl
    | some p =>
      have hlt := hp n p hpar
      show depthFuel f' h p + 1 = depthFuel g' h p + 1
      rw [ih p hlt f' g'
        (Nat.lt_of_lt_of_le hlt (Nat.lt_succ_iff.mp hf))
        (Nat.lt_of_lt_of_le hlt (Nat.lt_succ_iff.mp hg))]

/-- Depth only depends on the parent links below a bound that the chain
cannot leave. -/
theorem depthFuel_congr (h1 h2 : Heap) (L : Nat)
    (hp : ∀ i p, parentOf h1 i = some p → p < i)
    (hagree : ∀ i, i < L → parentOf h1 i = parentOf h2 i) :
    ∀ f n, n < L → depthFuel f h1 n = depthFuel f h2 n := by
  intro f
  induction f with
  | zero => intro n _; rfl
  | succ f ih =>
    intro n hn
    unfold depthFuel
    rw [← hagree n hn]
    cases hpar : parentOf h1 n with
    | none => rfl
    | some p =>
      show depthFuel f h1 p + 1 = depthFuel f h2 p + 1
      rw [ih p (Nat.lt_trans (hp n p hpar) hn)]

/-- C5: on a well-formed heap, a key `k` with no prior child under node `n`
has `containsChild` false and a falsy `child(k)`; after the upsert
`node[k] = v` the child exists: `containsChild` is true, `node[k]` yields the
same (now value-carrying) child with `*node[k] = v`, its parent is `n`
itself (by identity), its depth is `n`'s depth plus one, and its `subKey`
is `k`. -/
theorem c5_subscript_upsert (h : Heap) (n : Nat) (k : Nat) (v : Val)
    (hn : n < h.length)
    (hb : childrenBoundedB h = true)
    (hp : parentDecB h = true)
    (habs : containsChild h n k = false) :
    childOf h n k = none ∧
    containsChild (assignValue (subscriptChild h n k).2 (subscriptChild h n k).1 v) n k
      = true ∧
    subscriptChild (assignValue (subscriptChild h n k).2 (subscriptChild h n k).1 v) n k
      = ((subscriptChild h n k).1,
         assignValue (subscriptChild h n k).2 (subscriptChild h n k).1 v) ∧
    constDeref (assignValue (subscriptChild h n k).2 (subscriptChild h n k).1 v)
      (subscriptChild h n k).1 = some v ∧
    parentOf (assignValue (subscriptChild h n k).2 (subscriptChild h n k).1 v)
      (subscriptChild h n k).1 = some n ∧
    depthOf (assignValue (subscriptChild h n k).2 (subscriptChild h n k).1 v)
      (subscriptChild h n k).1 = depthOf h n + 1 ∧
    subKeyOf (assignValue (subscriptChild h n k).2 (subscriptChild h n k).1 v)
      (subscriptChild h n k).1 = k := by
  have hlook : mapLookup k (childrenOf h n) = none := by
    unfold containsChild mapContains at habs
    exact Option.not_isSome_iff_eq_none.mp (by simp [habs])
  have hchild : childOf h n k = none := hlook
  -- name the intermediate heaps
  have hsub : subscriptChild h n k =
      (h.length,
        setChildren (h ++ [⟨some n, [], none⟩]) n
          (mapInsert k h.length (childrenOf (h ++ [⟨some n, [], none⟩]) n))) := by
    unfold subscriptChild
    rw [hlook]
  set newd : NodeData := ⟨some n, [], none⟩ with hnewd
  have happ_children : childrenOf (h ++ [newd]) n = childrenOf h n := by
    unfold childrenOf
    rw [nodeAt_append_lt h [newd] n hn]
  set c := h.length with hc
  set happ := h ++ [newd] with happdef
  set h1 := setChildren happ n (mapInsert k c (childrenOf happ n)) with h1def
  have hsub1 : (subscriptChild h n k).1 = c := by rw [hsub]
  have hsub2 : (subscriptChild h n k).2 = h1 := by rw [hsub]
  set h2 := assignValue h1 c v with h2def
  have hlen_app : happ.length = h.length + 1 := by simp [happdef, hnewd]
  have hlen1 : h1.length = h.length + 1 := by
    rw [h1def, length_setChildren, hlen_app]
  have hlen2 : h2.length = h.length + 1 := by
    rw [h2def, assignValue, length_setValueOpt, hlen1]
  have hnc : n ≠ c := Nat.ne_of_lt hn
  -- children of n in h2
  have hch2 : childrenOf h2 n = mapInsert k c (childrenOf h n) := by
    rw [h2def, assignValue, childrenOf_setValueOpt, h1def,
      childrenOf_setChildren_self _ _ _ (by rw [hlen_app]; exact Nat.lt_succ_of_lt hn),
      happ_children]
  have hlook2 : mapLookup k (childrenOf h2 n) = some c := by
    rw [hch2]; exact mapLookup_insert_self k c _
  -- parent of c in h2
  have hpar2 : parentOf h2 c = some n := by
    rw [h2def, assignValue, parentOf_setValueOpt, h1def, parentOf_setChildren,
      happdef, parentOf, nodeAt_append_self h newd]
  refine ⟨hchild, ?_, ?_, ?_, ?_, ?_, ?_⟩
  · rw [hsub1, hsub2]
    unfold containsChild mapContains
    rw [hlook2]
    rfl
  · rw [hsub1, hsub2]
    unfold subscriptChild
    rw [hlook2]
  · rw [hsub1, hsub2]
    exact valueOf_setValueOpt_self h1 c (some v) (by rw [hlen1]; exact Nat.lt_succ_self _)
  · rw [hsub1, hsub2]
    exact hpar2
  · rw [hsub1, hsub2, ← h2def]
    unfold depthOf
    rw [hlen2]
    have hstep : depthFuel (h.length + 1) h2 c = depthFuel h.length h2 n + 1 := by
      show (match parentOf h2 c with
            | none => 0
            | some p => depthFuel h.length h2 p + 1) = depthFuel h.length h2 n + 1
      rw [hpar2]
    rw [hstep]
    have hagree : ∀ i, i < h.length → parentOf h i = parentOf h2 i := by
      intro i hi
      rw [h2def, assignValue, parentOf_setValueOpt, h1def, parentOf_setChildren,
        happdef, parentOf, parentOf, nodeAt_append_lt h [newd] i hi]
    rw [← depthFuel_congr h h2 h.length (parentDec_spec h hp) hagree h.length n hn]
  · rw [hsub1, hsub2, ← h2def]
    unfold subKeyOf
    rw [hpar2]
    show (mapKeyOfValue c (childrenOf h2 n)).getD 0 = k
    rw [hch2]
    have hfresh : ∀ kc ∈ childrenOf h n, kc.2 ≠ c := by
      intro kc hkc
      exact Nat.ne_of_lt (childrenBounded_spec h hb n kc hkc)
    rw [mapKeyOfValue_insert_fresh k c _ hfresh]
    rfl

/-! ### Structural-reading congruence -/

/-- `readTree` only depends on the children and value fields inside an
id range that is closed under children edges. -/
theorem readTree_congr_range (lo hi : Nat) (h1 h2 : Heap)
    (hcl : RangeClosed lo hi h1)
    (hag : ∀ i, lo ≤ i → i < hi → agreeCV h1 h2 i) :
    ∀ g n, lo ≤ n → n < hi → readTree g h1 n = readTree g h2 n := by
  intro g
  induction g with
  | zero =>
    intro n hlo hhi
    unfold readTree
    rw [(hag n hlo hhi).2]
  | succ g ih =>
    intro n hlo hhi
    unfold readTree
    rw [(hag n hlo hhi).2, (hag n hlo hhi).1]
    congr 1
    apply List.map_congr_left
    intro kc hkc
    have hrange := hcl n hlo hhi kc (by rw [(hag n hlo hhi).1]; exact hkc)
    rw [ih kc.2 hrange.1 hrange.2]

/-- With in-range and id-increasing children, every suffix range up to the
heap length is closed under children edges. -/
theorem rangeClosed_of_mono (h : Heap) (lo : Nat)
    (hb : childrenBoundedB h = true) (hm : childMonoB h = true) :
    RangeClosed lo h.length h := by
  intro i hlo hhi kc hkc
  exact ⟨Nat.le_of_lt (Nat.lt_of_le_of_lt hlo (childMono_spec h hm i kc hkc)),
    childrenBounded_spec h hb i kc hkc⟩

/-! ### Erase-by-value lemmas (for `detach`) -/

/-- When the scan finds the node under key `k`, the children list splits as
`l1 ++ (k, n) :: l2` with no earlier entry holding `n`, and the erase drops
exactly that entry. -/
theorem mapEraseValue_of_found (n : Nat) (k : Nat) :
    ∀ l : ChildMap, mapKeyOfValue n l = some k →
      ∃ l1 l2, l = l1 ++ (k, n) :: l2 ∧ mapEraseValue n l = some (l1 ++ l2) ∧
        ∀ kc ∈ l1, kc.2 ≠ n := by
  intro l
  induction l with
  | nil => intro hfind; simp [mapKeyOfValue] at hfind
  | cons kv rest ih =>
    obtain ⟨k', v'⟩ := kv
    intro hfind
    by_cases hv : v' = n
    · subst hv
      unfold mapKeyOfValue at hfind
      rw [if_pos rfl] at hfind
      cases hfind
      exact ⟨[], rest, by simp, by simp [mapEraseValue], by simp⟩
    · unfold mapKeyOfValue at hfind
      rw [if_neg hv] at hfind
      obtain ⟨l1, l2, hsplit, herase, hfst⟩ := ih hfind
      refine ⟨(k', v') :: l1, l2, by simp [hsplit], ?_, ?_⟩
      · unfold mapEraseValue
        rw [if_neg hv, herase]
        rfl
      · intro kc hkc
        rcases List.mem_cons.mp hkc with rfl | hmem
        · exact hv
        · exact hfst kc hmem

/-- A key that heads no entry is not found. -/
theorem mapLookup_none_of_not_mem (k : Nat) (l : ChildMap)
    (hk : ∀ kc ∈ l, kc.1 ≠ k) : mapLookup k l = none := by
  induction l with
  | nil => rfl
  | cons kv rest ih =>
    unfold mapLookup
    rw [if_neg (hk kv (List.mem_cons_self _ _))]
    exact ih fun kc hkc => hk kc (List.mem_cons_of_mem _ hkc)

/-- Removing the unique entry of a strictly-sorted map kills its key. -/
theorem mapLookup_erase_sorted (k : Nat) (n : Nat) (l1 l2 : ChildMap)
    (hsort : ((l1 ++ (k, n) :: l2).map Prod.fst).Chain' (· < ·)) :
    mapLookup k (l1 ++ l2) = none := by
  have hpw : ((l1 ++ (k, n) :: l2).map Prod.fst).Pairwise (· < ·) :=
    List.chain'_iff_pairwise.mp hsort
  rw [List.map_append, List.pairwise_append] at hpw
  obtain ⟨hpw1, hpw2, hcross⟩ := hpw
  apply mapLookup_none_of_not_mem
  intro kc hkc
  rcases List.mem_append.mp hkc with hmem | hmem
  · have := hcross kc.1 (List.mem_map_of_mem Prod.fst hmem) k
      (by simp)
    exact Nat.ne_of_lt this
  · have hk : k < kc.1 := by
      rw [List.map_cons] at hpw2
      exact (List.pairwise_cons.mp hpw2).1 kc.1 (List.mem_map_of_mem Prod.fst hmem)
    exact (Nat.ne_of_lt hk).symm

/-- Zero depth as soon as the parent link is empty, at any fuel. -/
theorem depthFuel_no_parent (f : Nat) (h : Heap) (n : Nat)
    (hp : parentOf h n = none) : depthFuel f h n = 0 := by
  cases f with
  | zero => rfl
  | succ f => unfold depthFuel; rw [hp]

/-- C6: detaching a node that is a child of `p` under key `k` removes
exactly that entry from `p`'s children (so `containsChild(k)` turns false),
clears the node's parent link (so `parent()` is falsy and `depth()` is 0),
and leaves the node's own children map and entire subtree reading unchanged;
detaching a parentless node is a no-op. -/
theorem c6_detach_frame (h : Heap) (n p : Nat) (k : Nat)
    (hn : n < h.length)
    (hb : childrenBoundedB h = true)
    (hpd : parentDecB h = true)
    (hm : childMonoB h = true)
    (hsort : sortedKeysB h = true) :
    (parentOf h n = none → detach h n = h) ∧
    (parentOf h n = some p → mapKeyOfValue n (childrenOf h p) = some k →
      containsChild (detach h n) p k = false ∧
      parentOf (detach h n) n = none ∧
      depthOf (detach h n) n = 0 ∧
      childrenOf (detach h n) n = childrenOf h n ∧
      valueOf (detach h n) n = valueOf h n ∧
      (∀ g, readTree g (detach h n) n = readTree g h n)) := by
  constructor
  · intro hnp
    unfold detach
    rw [hnp]
  · intro hpar hfind
    have hpn : p < n := parentDec_spec h hpd n p hpar
    have hplen : p < h.length := Nat.lt_trans hpn hn
    obtain ⟨l1, l2, hsplit, herase, hfst⟩ := mapEraseValue_of_found n k _ hfind
    have hdetach : detach h n = setParent (setChildren h p (l1 ++ l2)) n none := by
      unfold detach
      rw [hpar]
      show (match mapEraseValue n (childrenOf h p) with
            | none => h
            | some cs => setParent (setChildren h p cs) n none) = _
      rw [herase]
    have hnep : n ≠ p := (Nat.ne_of_lt hpn).symm
    -- children of p after the erase
    have hchp : childrenOf (detach h n) p = l1 ++ l2 := by
      rw [hdetach, childrenOf_setParent,
        childrenOf_setChildren_self _ _ _ hplen]
    -- fields of n preserved
    have hchn : childrenOf (detach h n) n = childrenOf h n := by
      rw [hdetach, childrenOf_setParent, childrenOf_setChildren_ne _ _ _ _ hnep]
    have hvn : valueOf (detach h n) n = valueOf h n := by
      rw [hdetach, valueOf_setParent, valueOf_setChildren]
    have hparn : parentOf (detach h n) n = none := by
      rw [hdetach, parentOf_setParent_self _ _ _ (by rw [length_setChildren]; exact hn)]
    refine ⟨?_, hparn, depthFuel_no_parent _ _ _ hparn, hchn, hvn, ?_⟩
    · unfold containsChild mapContains
      rw [hchp, mapLookup_erase_sorted k n l1 l2 (by
        have := sortedKeys_spec h hsort p
        rwa [hsplit] at this)]
      rfl
    · intro g
      have hcl : RangeClosed n h.length h := rangeClosed_of_mono h n hb hm
      have hag : ∀ i, n ≤ i → i < h.length → agreeCV h (detach h n) i := by
        intro i hilo hihi
        have hip : i ≠ p := fun hip => Nat.not_lt.mpr hilo (hip ▸ hpn)
        constructor
        · rw [hdetach, childrenOf_setParent, childrenOf_setChildren_ne _ _ _ _ hip]
        · rw [hdetach, valueOf_setParent, valueOf_setChildren]
      exact (readTree_congr_range n h.length h (detach h n) hcl hag g n
        (Nat.le_refl n) hn).symm

/-- Witness for `c6_detach_frame`: detaching node 4 (key path `[1, 3]`) of
the demo tree. -/
theorem c6_detach_frame_witness :
    containsChild (detach demoTree.heap 4) 2 3 = false ∧
    parentOf (detach demoTree.heap 4) 4 = none := by
  have h := (c6_detach_frame demoTree.heap 4 2 3 (by decide) (by decide) (by decide)
    (by decide) (by decide)).2 (by decide) (by decide)
  exact ⟨h.1, h.2.1⟩

/-! ### Deep-copy (`clone`) infrastructure -/

/-- `readTree` only depends on children and values, never on parent links. -/
theorem readTree_congr_all (h1 h2 : Heap)
    (hag : ∀ i, agreeCV h1 h2 i) :
    ∀ g n, readTree g h1 n = readTree g h2 n := by
  intro g
  induction g with
  | zero =>
    intro n
    unfold readTree
    rw [(hag n).2]
  | succ g ih =>
    intro n
    unfold readTree
    rw [(hag n).2, (hag n).1]
    congr 1
    apply List.map_congr_left
    intro kc _
    rw [ih kc.2]

/-- Range closure only depends on the children maps inside the range. -/
theorem rangeClosed_transfer (lo hi : Nat) (h h2 : Heap)
    (hrc : RangeClosed lo hi h)
    (hag : ∀ i, lo ≤ i → i < hi → childrenOf h2 i = childrenOf h i) :
    RangeClosed lo hi h2 := by
  intro i hlo hhi kc hkc
  exact hrc i hlo hhi kc (by rw [← hag i hlo hhi]; exact hkc)

/-- Child monotonicity below a bound only depends on those children maps. -/
theorem monoBelow_transfer (L : Nat) (h h2 : Heap)
    (hm : MonoBelow L h)
    (hag : ∀ i, i < L → childrenOf h2 i = childrenOf h i) :
    MonoBelow L h2 := by
  intro i hi kc hkc
  exact hm i hi kc (by rw [← hag i hi]; exact hkc)

/-- Record equality gives children equality. -/
theorem childrenOf_eq_of_nodeAt (h h2 : Heap) (i : Nat)
    (hag : nodeAt h2 i = nodeAt h i) : childrenOf h2 i = childrenOf h i := by
  unfold childrenOf
  rw [hag]

/-- Record equality gives value equality. -/
theorem valueOf_eq_of_nodeAt (h h2 : Heap) (i : Nat)
    (hag : nodeAt h2 i = nodeAt h i) : valueOf h2 i = valueOf h i := by
  unfold valueOf
  rw [hag]

/-- A successful map lookup is a membership. -/
theorem mapLookup_mem (k : Nat) (c : Nat) :
    ∀ l : ChildMap, mapLookup k l = some c → (k, c) ∈ l := by
  intro l
  induction l with
  | nil => intro heq; simp [mapLookup] at heq
  | cons kv rest ih =>
    intro heq
    obtain ⟨k', v'⟩ := kv
    unfold mapLookup at heq
    by_cases hk : k' = k
    · rw [if_pos hk] at heq
      cases heq
      subst hk
      exact List.mem_cons_self _ _
    · rw [if_neg hk] at heq
      exact List.mem_cons_of_mem _ (ih heq)

/-- `NodeData::find` cannot leave a children-closed id range. -/
theorem findNode_range (lo hi : Nat) (h : Heap)
    (hrc : RangeClosed lo hi h) :
    ∀ (p : List Nat) (n m : Nat), lo ≤ n → n < hi →
      findNode h n p = some m → lo ≤ m ∧ m < hi := by
  intro p
  induction p with
  | nil =>
    intro n m hlo hhi heq
    cases heq
    exact ⟨hlo, hhi⟩
  | cons k p ih =>
    intro n m hlo hhi heq
    unfold findNode at heq
    cases hl : mapLookup k (childrenOf h n) with
    | none => rw [hl] at heq; cases heq
    | some c =>
      rw [hl] at heq
      have hmem := mapLookup_mem k c _ hl
      have hrange := hrc n hlo hhi (k, c) hmem
      exact ih c m hrange.1 hrange.2 heq

/-- Keyed map from a `Forall₂` correspondence between children lists. -/
theorem forall2_map_eq (F G : Nat → STree)
    {P : (Nat × Nat) → (Nat × Nat) → Prop} :
    ∀ (l cs : ChildMap), List.Forall₂ P l cs →
      (∀ kc kcc, P kc kcc → kcc.1 = kc.1 ∧ F kcc.2 = G kc.2) →
      cs.map (fun kcc => (kcc.1, F kcc.2)) = l.map (fun kc => (kc.1, G kc.2)) := by
  intro l cs hf
  induction hf with
  | nil => intro _; rfl
  | cons hab hrest ih =>
    intro hP
    simp only [List.map_cons]
    rw [(hP _ _ hab).1, (hP _ _ hab).2, ih hP]

/-- `setParent` leaves every other record untouched. -/
theorem nodeAt_setParent_ne (h : Heap) (n : Nat) (p : Option Nat) (i : Nat)
    (hi : i ≠ n) : nodeAt (setParent h n p) i = nodeAt h i :=
  nodeAt_set_ne h n _ i hi

/-- `setChildren` leaves every other record untouched. -/
theorem nodeAt_setChildren_ne (h : Heap) (n : Nat) (c : ChildMap) (i : Nat)
    (hi : i ≠ n) : nodeAt (setChildren h n c) i = nodeAt h i :=
  nodeAt_set_ne h n _ i hi

/-- A membership-aware strengthening of `List.Forall₂.imp`. -/
theorem forall2_imp_mem {α β : Type} {R S : α → β → Prop} :
    ∀ (l : List α) (cs : List β), List.Forall₂ R l cs →
      (∀ a b, a ∈ l → R a b → S a b) → List.Forall₂ S l cs := by
  intro l cs hf
  induction hf with
  | nil => intro _; exact .nil
  | cons hab hrest ih =>
    intro himp
    exact .cons (himp _ _ (List.mem_cons_self _ _) hab)
      (ih fun a b hm hr => himp a b (List.mem_cons_of_mem _ hm) hr)

/-- The child-rewiring loop of `NodeData::clone` satisfies `CloneListOK`,
assuming every recursive `clone` call at fuel `f` satisfies `CloneFuelOK`. -/
theorem cloneChildren_spec (L f : Nat) (nid : Nat)
    (ihf : ∀ (h : Heap) (n c : Nat) (h' : Heap),
      RangeClosed 0 L h → MonoBelow L h → L ≤ h.length → n < L → L - n ≤ f →
      cloneFuel f h n = (c, h') → CloneFuelOK h n c h') :
    ∀ (l : ChildMap) (h : Heap) (cs : ChildMap) (h2 : Heap),
      RangeClosed 0 L h → MonoBelow L h → L ≤ h.length →
      (∀ kc ∈ l, kc.2 < L ∧ L - kc.2 ≤ f) →
      cloneChildren f h nid l = (cs, h2) → CloneListOK h l cs h2 := by
  intro l
  induction l with
  | nil =>
    intro h cs h2 _ _ _ _ heq
    rw [cloneChildren] at heq
    injection heq with hcs hh2
    subst hcs
    subst hh2
    unfold CloneListOK
    refine ⟨rfl, Nat.le_refl _, fun i _ => rfl, ?_, List.Forall₂.nil⟩
    intro i hlo hhi kc hkc
    omega
  | cons kc0 rest ihl =>
    intro h cs h2 hrc hmono hL hfl heq
    obtain ⟨k, cold⟩ := kc0
    rcases hcf : cloneFuel f h cold with ⟨c1, hp1⟩
    rcases hccr : cloneChildren f (setParent hp1 c1 (some nid)) nid rest with ⟨cs3, h3⟩
    rw [cloneChildren, hcf] at heq
    dsimp only at heq
    rw [hccr] at heq
    dsimp only at heq
    have hok := ihf h cold c1 hp1 hrc hmono hL
      (hfl (k, cold) (List.mem_cons_self _ _)).1
      (hfl (k, cold) (List.mem_cons_self _ _)).2 hcf
    obtain ⟨hc1, hlt1, hag1, hrc1, hrt1⟩ := hok
    have hlenm : (setParent hp1 c1 (some nid)).length = hp1.length :=
      length_setParent hp1 c1 (some nid)
    have hagm_nodeAt : ∀ i, i < h.length →
        nodeAt (setParent hp1 c1 (some nid)) i = nodeAt h i := by
      intro i hi
      rw [nodeAt_setParent_ne hp1 c1 _ i (by rw [hc1]; exact Nat.ne_of_lt hi), hag1 i hi]
    have hrc_m : RangeClosed 0 L (setParent hp1 c1 (some nid)) :=
      rangeClosed_transfer 0 L h _ hrc fun i _ hi =>
        childrenOf_eq_of_nodeAt h _ i (hagm_nodeAt i (Nat.lt_of_lt_of_le hi hL))
    have hmono_m : MonoBelow L (setParent hp1 c1 (some nid)) :=
      monoBelow_transfer L h _ hmono fun i hi =>
        childrenOf_eq_of_nodeAt h _ i (hagm_nodeAt i (Nat.lt_of_lt_of_le hi hL))
    have hL_m : L ≤ (setParent hp1 c1 (some nid)).length := by omega
    have hok2 := ihl (setParent hp1 c1 (some nid)) cs3 h3 hrc_m hmono_m hL_m
      (fun kc hkc => hfl kc (List.mem_cons_of_mem _ hkc)) hccr
    obtain ⟨hmap2, hle2, hag2, hrc2, hfa2⟩ := hok2
    rw [hlenm] at hle2 hrc2
    injection heq with hcs hh2
    subst hcs
    subst hh2
    have hag2' : ∀ i, i < hp1.length →
        nodeAt h3 i = nodeAt (setParent hp1 c1 (some nid)) i := by
      intro i hi
      exact hag2 i (by omega)
    -- agreement of the final heap with the rewired heap inside the clone block
    have hag_block : ∀ i, h.length ≤ i → i < hp1.length →
        agreeCV (setParent hp1 c1 (some nid)) h3 i := by
      intro i _ hi
      constructor
      · rw [childrenOf_eq_of_nodeAt _ h3 i (hag2' i hi)]
      · rw [valueOf_eq_of_nodeAt _ h3 i (hag2' i hi)]
    unfold CloneListOK
    refine ⟨?_, ?_, ?_, ?_, ?_⟩
    · simp [hmap2]
    · omega
    · intro i hi
      rw [hag2' i (by omega), hagm_nodeAt i hi]
    · intro i hlo hhi kc hkc
      rcases Nat.lt_or_ge i hp1.length with hcase | hcase
      · have hchi : childrenOf h3 i = childrenOf hp1 i := by
          rw [childrenOf_eq_of_nodeAt _ h3 i (hag2' i hcase), childrenOf_setParent]
        rw [hchi] at hkc
        have hb := hrc1 i hlo hcase kc hkc
        omega
      · have hb := hrc2 i (by omega) hhi kc hkc
        omega
    · refine List.Forall₂.cons ⟨rfl, ?_, ?_, ?_⟩ ?_
      · omega
      · omega
      · intro g
        have e1 : readTree g h3 c1 = readTree g (setParent hp1 c1 (some nid)) c1 := by
          have hrcm_block : RangeClosed h.length hp1.length (setParent hp1 c1 (some nid)) :=
            rangeClosed_transfer h.length hp1.length hp1 _ hrc1
              (fun i _ _ => childrenOf_setParent hp1 c1 (some nid) i)
          have hrcm_block' : RangeClosed (List.length h)
              (List.length (setParent hp1 c1 (some nid))) (setParent hp1 c1 (some nid)) := by
            rw [hlenm]
            exact hrcm_block
          exact (readTree_congr_range h.length (setParent hp1 c1 (some nid)).length
            (setParent hp1 c1 (some nid)) h3 hrcm_block'
            (fun i hlo hhi => hag_block i hlo (by omega)) g c1
            (by omega) (by omega)).symm
        have e2 : readTree g (setParent hp1 c1 (some nid)) c1 = readTree g hp1 c1 :=
          readTree_congr_all (setParent hp1 c1 (some nid)) hp1
            (fun i => ⟨childrenOf_setParent hp1 c1 (some nid) i,
                       valueOf_setParent hp1 c1 (some nid) i⟩) g c1
        rw [e1, e2, hrt1 g]
      · apply forall2_imp_mem rest cs3 hfa2
        intro kc kcc hmem hr
        obtain ⟨hfst, hlo1, hhi1, hrt2⟩ := hr
        refine ⟨hfst, by omega, hhi1, ?_⟩
        intro g
        have e3 : readTree g (setParent hp1 c1 (some nid)) kc.2 = readTree g h kc.2 := by
          exact (readTree_congr_range 0 L h (setParent hp1 c1 (some nid)) hrc
            (fun i _ hi => ⟨(childrenOf_eq_of_nodeAt h _ i
                (hagm_nodeAt i (Nat.lt_of_lt_of_le hi hL))).symm,
              (valueOf_eq_of_nodeAt h _ i
                (hagm_nodeAt i (Nat.lt_of_lt_of_le hi hL))).symm⟩) g kc.2
            (Nat.zero_le _) (hfl kc (List.mem_cons_of_mem _ hmem)).1).symm
        rw [hrt2 g, e3]

/-- Right-membership inversion for `Forall₂`. -/
theorem forall2_mem_right {α β : Type} {R : α → β → Prop} :
    ∀ (l : List α) (cs : List β), List.Forall₂ R l cs →
      ∀ b ∈ cs, ∃ a ∈ l, R a b := by
  intro l cs hf
  induction hf with
  | nil => intro b hb; simp at hb
  | cons hab hrest ih =>
    intro b hb
    rcases List.mem_cons.mp hb with rfl | hmem
    · exact ⟨_, List.mem_cons_self _ _, hab⟩
    · obtain ⟨a, ha, hr⟩ := ih b hmem
      exact ⟨a, List.mem_cons_of_mem _ ha, hr⟩

/-- Bounded children give range closure over the whole heap. -/
theorem rangeClosed_of_bounded (h : Heap) (hb : childrenBoundedB h = true) :
    RangeClosed 0 h.length h :=
  fun i _ _ kc hkc => ⟨Nat.zero_le _, childrenBounded_spec h hb i kc hkc⟩

/-- `setValueOpt` leaves every other record untouched. -/
theorem nodeAt_setValueOpt_ne (h : Heap) (n : Nat) (v : Option Val) (i : Nat)
    (hi : i ≠ n) : nodeAt (setValueOpt h n v) i = nodeAt h i :=
  nodeAt_set_ne h n _ i hi

/-- `NodeData::clone` satisfies `CloneFuelOK` whenever the fuel covers the
id distance to the bound `L` of a children-closed, id-increasing heap
region. -/
theorem cloneFuel_spec (L : Nat) :
    ∀ (f : Nat) (h : Heap) (n c : Nat) (h' : Heap),
      RangeClosed 0 L h → MonoBelow L h → L ≤ h.length → n < L → L - n ≤ f →
      cloneFuel f h n = (c, h') → CloneFuelOK h n c h' := by
  intro f
  induction f with
  | zero =>
    intro h n c h' _ _ _ hnL hfuel _
    exact absurd hnL (by omega)
  | succ f ih =>
    intro h n c h' hrc hmono hL hnL hfuel heq
    rcases hcc : cloneChildren f (h ++ [nodeAt h n]) h.length (nodeAt h n).children
      with ⟨cs, h2⟩
    rw [cloneFuel] at heq
    dsimp only at heq
    rw [hcc] at heq
    dsimp only at heq
    injection heq with hc hh'
    subst hc
    subst hh'
    have hlapp : (h ++ [nodeAt h n]).length = h.length + 1 := by simp
    have happ_agree : ∀ i, i < h.length → nodeAt (h ++ [nodeAt h n]) i = nodeAt h i :=
      fun i hi => nodeAt_append_lt h [nodeAt h n] i hi
    have happ_self : nodeAt (h ++ [nodeAt h n]) h.length = nodeAt h n :=
      nodeAt_append_self h (nodeAt h n)
    have hrc_app : RangeClosed 0 L (h ++ [nodeAt h n]) :=
      rangeClosed_transfer 0 L h _ hrc fun i _ hi =>
        childrenOf_eq_of_nodeAt h _ i (happ_agree i (Nat.lt_of_lt_of_le hi hL))
    have hmono_app : MonoBelow L (h ++ [nodeAt h n]) :=
      monoBelow_transfer L h _ hmono fun i hi =>
        childrenOf_eq_of_nodeAt h _ i (happ_agree i (Nat.lt_of_lt_of_le hi hL))
    have hentries : ∀ kc ∈ (nodeAt h n).children, kc.2 < L ∧ L - kc.2 ≤ f := by
      intro kc hkc
      have hlt := (hrc n (Nat.zero_le _) hnL kc hkc).2
      have hgt := hmono n hnL kc hkc
      omega
    have hok := cloneChildren_spec L f h.length ih (nodeAt h n).children
      (h ++ [nodeAt h n]) cs h2 hrc_app hmono_app (by omega) hentries hcc
    obtain ⟨hmap, hle, hag, hrcC, hfa⟩ := hok
    rw [hlapp] at hle hrcC hag
    have hlen' : (setChildren h2 h.length cs).length = h2.length :=
      length_setChildren h2 h.length cs
    have hval : valueOf (setChildren h2 h.length cs) h.length = valueOf h n := by
      rw [valueOf_setChildren]
      unfold valueOf
      rw [hag h.length (by omega), happ_self]
    have hch : childrenOf (setChildren h2 h.length cs) h.length = cs :=
      childrenOf_setChildren_self h2 h.length cs (by omega)
    -- strengthen the child correspondence with source-side bounds
    have hfa' : List.Forall₂ (fun kc kcc => kcc.1 = kc.1 ∧
        h.length + 1 ≤ kcc.2 ∧ kcc.2 < h2.length ∧ kc.2 < L ∧
        ∀ g, readTree g h2 kcc.2 = readTree g (h ++ [nodeAt h n]) kc.2)
        (nodeAt h n).children cs := by
      apply forall2_imp_mem _ _ hfa
      intro kc kcc hmem hr
      obtain ⟨h1, h2', h3, h4⟩ := hr
      exact ⟨h1, by omega, h3, (hentries kc hmem).1, h4⟩
    unfold CloneFuelOK
    refine ⟨rfl, by omega, ?_, ?_, ?_⟩
    · intro i hi
      rw [nodeAt_setChildren_ne h2 h.length cs i (by omega), hag i (by omega),
        happ_agree i hi]
    · intro i hlo hhi kc hkc
      rw [hlen'] at hhi
      rcases eq_or_ne i h.length with rfl | hne
      · rw [hch] at hkc
        obtain ⟨a, _, hra⟩ := forall2_mem_right _ _ hfa' kc hkc
        obtain ⟨_, hb1, hb2, _, _⟩ := hra
        constructor
        · omega
        · rw [hlen']; omega
      · have hchi : childrenOf (setChildren h2 h.length cs) i = childrenOf h2 i :=
          childrenOf_setChildren_ne h2 h.length cs i hne
        rw [hchi] at hkc
        have hb := hrcC i (by omega) hhi kc hkc
        constructor
        · omega
        · rw [hlen']; omega
    · intro g
      cases g with
      | zero =>
        unfold readTree
        rw [hval]
      | succ g =>
        unfold readTree
        rw [hval, hch]
        show STree.node (valueOf h n) _ = STree.node (valueOf h n) _
        congr 1
        have hchn : childrenOf h n = (nodeAt h n).children := rfl
        rw [hchn]
        apply forall2_map_eq (fun x => readTree g (setChildren h2 h.length cs) x)
          (fun x => readTree g h x) (nodeAt h n).children cs hfa'
        intro kc kcc hr
        obtain ⟨h1, hb1, hb2, hkcL, hread⟩ := hr
        refine ⟨h1, ?_⟩
        have e1 : readTree g (setChildren h2 h.length cs) kcc.2 = readTree g h2 kcc.2 := by
          refine (readTree_congr_range (h.length + 1) h2.length h2
            (setChildren h2 h.length cs) ?_ ?_ g kcc.2 hb1 hb2).symm
          · intro i hlo hhi kc2 hkc2
            have hb := hrcC i (by omega) hhi kc2 hkc2
            omega
          · intro i hlo hhi
            exact ⟨(childrenOf_setChildren_ne h2 h.length cs i (by omega)).symm,
              (valueOf_setChildren h2 h.length cs i).symm⟩
        have e2 : readTree g (h ++ [nodeAt h n]) kc.2 = readTree g h kc.2 := by
          exact (readTree_congr_range 0 L h (h ++ [nodeAt h n]) hrc
            (fun i _ hi => ⟨(childrenOf_eq_of_nodeAt h _ i
                (happ_agree i (Nat.lt_of_lt_of_le hi hL))).symm,
              (valueOf_eq_of_nodeAt h _ i
                (happ_agree i (Nat.lt_of_lt_of_le hi hL))).symm⟩) g kc.2
            (Nat.zero_le _) hkcL).symm
        rw [e1, hread g, e2]

/-- C7: `Node::clone` returns a fresh record (unequal to the source by
identity) whose own parent link is cleared, leaves every pre-existing
record untouched, and whose subtree reads structurally equal to the
source's (same key paths, same values at every path, any depth); the copy
is independently mutable: assigning a value at any node found inside the
clone's subtree leaves the source's subtree reading unchanged, and
assigning inside the source's subtree leaves the clone's subtree reading
unchanged. -/
theorem c7_clone_independent (h : Heap) (n : Nat)
    (hn : n < h.length)
    (hb : childrenBoundedB h = true)
    (hm : childMonoB h = true) :
    (cloneNode h n).1 ≠ n ∧
    parentOf (cloneNode h n).2 (cloneNode h n).1 = none ∧
    (∀ i, i < h.length → nodeAt (cloneNode h n).2 i = nodeAt h i) ∧
    (∀ g, readTree g (cloneNode h n).2 (cloneNode h n).1 = readTree g h n) ∧
    (∀ p m v, findNode (cloneNode h n).2 (cloneNode h n).1 p = some m →
      ∀ g, readTree g (assignValue (cloneNode h n).2 m v) n = readTree g h n) ∧
    (∀ p m v, findNode (cloneNode h n).2 n p = some m →
      ∀ g, readTree g (assignValue (cloneNode h n).2 m v) (cloneNode h n).1 =
        readTree g (cloneNode h n).2 (cloneNode h n).1) := by
  rcases hcf : cloneFuel h.length h n with ⟨c1, hp1⟩
  have hNode : cloneNode h n = (c1, setParent hp1 c1 none) := by
    unfold cloneNode
    rw [hcf]
  have hok := cloneFuel_spec h.length h.length h n c1 hp1
    (rangeClosed_of_bounded h hb)
    (fun i hi kc hkc => childMono_spec h hm i kc hkc)
    (Nat.le_refl _) hn (by omega) hcf
  obtain ⟨hc1, hlt1, hag1, hrc1, hrt1⟩ := hok
  rw [hNode]
  dsimp only
  have hc1lt : c1 < hp1.length := by omega
  have hnc1 : n ≠ c1 := by omega
  -- fields of the final clone heap
  have hag' : ∀ i, i < h.length → nodeAt (setParent hp1 c1 none) i = nodeAt h i := by
    intro i hi
    rw [nodeAt_setParent_ne hp1 c1 none i (by omega), hag1 i hi]
  have hrc1' : RangeClosed h.length hp1.length (setParent hp1 c1 none) :=
    rangeClosed_transfer h.length hp1.length hp1 _ hrc1
      (fun i _ _ => childrenOf_setParent hp1 c1 none i)
  have hrc0' : RangeClosed 0 h.length (setParent hp1 c1 none) :=
    rangeClosed_transfer 0 h.length h _ (rangeClosed_of_bounded h hb)
      (fun i _ hi => childrenOf_eq_of_nodeAt h _ i (hag' i hi))
  have hread_clone : ∀ g, readTree g (setParent hp1 c1 none) c1 = readTree g h n := by
    intro g
    rw [readTree_congr_all (setParent hp1 c1 none) hp1
      (fun i => ⟨childrenOf_setParent hp1 c1 none i, valueOf_setParent hp1 c1 none i⟩)
      g c1, hrt1 g]
  have hread_source : ∀ g, readTree g (setParent hp1 c1 none) n = readTree g h n := by
    intro g
    exact (readTree_congr_range 0 h.length h (setParent hp1 c1 none)
      (rangeClosed_of_bounded h hb)
      (fun i _ hi => ⟨(childrenOf_eq_of_nodeAt h _ i (hag' i hi)).symm,
        (valueOf_eq_of_nodeAt h _ i (hag' i hi)).symm⟩) g n (Nat.zero_le _) hn).symm
  refine ⟨by omega, ?_, hag', hread_clone, ?_, ?_⟩
  · exact parentOf_setParent_self hp1 c1 none (by omega)
  · intro p m v hfind g
    have hmrange := findNode_range h.length hp1.length (setParent hp1 c1 none)
      hrc1' p c1 m (by omega) (by omega) hfind
    have e1 : readTree g (assignValue (setParent hp1 c1 none) m v) n =
        readTree g (setParent hp1 c1 none) n := by
      exact (readTree_congr_range 0 h.length (setParent hp1 c1 none)
        (assignValue (setParent hp1 c1 none) m v) hrc0'
        (fun i _ hi => ⟨(childrenOf_eq_of_nodeAt _ _ i
            (nodeAt_setValueOpt_ne _ m (some v) i (by omega))).symm,
          (valueOf_eq_of_nodeAt _ _ i
            (nodeAt_setValueOpt_ne _ m (some v) i (by omega))).symm⟩) g n
        (Nat.zero_le _) hn).symm
    rw [e1, hread_source g]
  · intro p m v hfind g
    have hmrange := findNode_range 0 h.length (setParent hp1 c1 none)
      hrc0' p n m (Nat.zero_le _) hn hfind
    exact (readTree_congr_range h.length hp1.length (setParent hp1 c1 none)
      (assignValue (setParent hp1 c1 none) m v) hrc1'
      (fun i hlo hhi => ⟨(childrenOf_eq_of_nodeAt _ _ i
          (nodeAt_setValueOpt_ne _ m (some v) i (by omega))).symm,
        (valueOf_eq_of_nodeAt _ _ i
          (nodeAt_setValueOpt_ne _ m (some v) i (by omega))).symm⟩) g c1
      (by omega) (by omega)).symm

/-- Witness for `c7_clone_independent`: cloning node 4 (key path `[1, 3]`)
of the demo tree. -/
theorem c7_clone_independent_witness :
    (cloneNode demoTree.heap 4).1 ≠ 4 ∧
    parentOf (cloneNode demoTree.heap 4).2 (cloneNode demoTree.heap 4).1 = none := by
  have hth := c7_clone_independent demoTree.heap 4 (by decide) (by decide) (by decide)
  exact ⟨hth.1, hth.2.1⟩

/-- C9: a weak handle is truthy and upgrades (`toNode`) to a strong handle
on the same record exactly while some strong path reaches the record; once
no strong path remains it is falsy and `toNode` returns a falsy handle.
Concretely (the test driver's scenario): with a root handle owning a child
under key 13, the child's weak handle survives dropping the external child
handle, and dies once `removeChild(13)` severs the last strong path. -/
theorem c9_weak_liveness (st : TreeState) (w : Nat) :
    (aliveB st w = true → weakTruthy st w = true ∧ weakToNode st w = some w) ∧
    (aliveB st w = false → weakTruthy st w = false ∧ weakToNode st w = none) ∧
    aliveB weakDemoState 1 = true ∧
    aliveB weakDemoDropped 1 = true ∧
    aliveB weakDemoRemoved 1 = false ∧
    weakToNode weakDemoRemoved 1 = none := by
  refine ⟨?_, ?_, by decide, by decide, by decide, by decide⟩
  · intro ha
    exact ⟨ha, by simp [weakToNode, ha]⟩
  · intro ha
    exact ⟨ha, by simp [weakToNode, ha]⟩

/-- Witness for `c9_weak_liveness` at the concrete scenario states. -/
theorem c9_weak_liveness_witness :
    weakToNode weakDemoDropped 1 = some 1 ∧ weakTruthy weakDemoRemoved 1 = false :=
  ⟨((c9_weak_liveness weakDemoDropped 1).1 (by decide)).2,
   ((c9_weak_liveness weakDemoRemoved 1).2.1 (by decide)).1⟩

/-- Witness for `c5_subscript_upsert`: inserting key 9 below the root of the
demo tree. -/
theorem c5_subscript_upsert_witness :
    childOf demoTree.heap demoTree.root 9 = none ∧
    parentOf
      (assignValue (subscriptChild demoTree.heap demoTree.root 9).2
        (subscriptChild demoTree.heap demoTree.root 9).1 77)
      (subscriptChild demoTree.heap demoTree.root 9).1 = some demoTree.root := by
  have h := c5_subscript_upsert demoTree.heap demoTree.root 9 77
    (by decide) (by decide) (by decide) (by decide)
  exact ⟨h.1, h.2.2.2.2.1⟩

end QGenericTree
